import Mathlib

/-!
Shallow embedding of the point-in-time momentum core of the repository:
carry-backward price resolution (`pick_close_on_or_before`,
`last_value_on_or_before`), trading-calendar projection
(`prev_or_same_session`), the RSR composite (`safe_detect_number` in its two
source variants), the ranking loop of `rsr_old.py`, and the backtest
simulators (`simulate_10k`, `simulation_onebuy_in_v3.py`,
`nikkei225_return_pct`).

Dates are embedded as `Int` (day numbers), prices as `ℚ`.  A price series is
the `dropna()`-ed row of the wide close matrix: an association list of
(date, close) pairs whose dates are strictly increasing (the matrix columns
arrive sorted and unique).  Python code that can raise is embedded as
`Option`/`Except`: `none`/`.error` is a raised exception.
-/

namespace Trading

/-- A price series: (date, close) pairs; the repository keeps dates strictly
increasing (`sort_index()` over unique normalized column dates). -/
abbrev PriceSeries := List (Int × ℚ)

/-- The series invariant maintained by the loaders: strictly increasing dates. -/
def SortedSeries (S : PriceSeries) : Prop := S.Pairwise (fun a b => a.1 < b.1)

instance (S : PriceSeries) : Decidable (SortedSeries S) := by
  unfold SortedSeries; infer_instance

/-- The wide close matrix: instrument identifier ↦ its (dropna-ed) series. -/
abbrev PriceMatrix := List (String × PriceSeries)

/-- `pick_close_on_or_before` from `rsr_old.py` (also `RSRだけ.py`,
`rsr_prot_pre.py`): exact date match wins, otherwise the value at the last
recorded date `≤ day`; `none` when the series is empty or all entries are
after `day`. -/
def pick_close_on_or_before (closes : PriceSeries) (day : Int) : Option ℚ :=
  if closes = [] then none
  else
    match closes.lookup day with
    | some v => some v
    | none =>
      match (closes.filter (fun e => decide (e.1 ≤ day))).getLast? with
      | some e => some e.2
      | none => none

/-- `last_value_on_or_before` from `simulation_onebuy_in_v3.py` (also
`simulation_10万円ずつ.py`): the last (value, date) with date `≤ target`. -/
def last_value_on_or_before (row : PriceSeries) (target : Int) :
    Option (ℚ × Int) :=
  match (row.filter (fun e => decide (e.1 ≤ target))).getLast? with
  | some e => some (e.2, e.1)
  | none => none

/-- WEIGHTS["q1"] = 0.4 -/
def weight_q1 : ℚ := 4 / 10
/-- WEIGHTS["q2"] = 0.2 -/
def weight_q2 : ℚ := 2 / 10
/-- WEIGHTS["q3"] = 0.2 -/
def weight_q3 : ℚ := 2 / 10
/-- WEIGHTS["y1"] = 0.2 -/
def weight_y1 : ℚ := 2 / 10

/-- `safe_detect_number` from `rsr_old.py` / `RSRだけ.py`: `None` when any of
the five prices is `None` or any of the four historical prices is `0`;
otherwise the weighted composite times 100. -/
def safe_detect_number (p0 p1y pq1 pq2 pq3 : Option ℚ) : Option ℚ :=
  match p0, p1y, pq1, pq2, pq3 with
  | some a0, some a1y, some aq1, some aq2, some aq3 =>
    if a1y = 0 ∨ aq1 = 0 ∨ aq2 = 0 ∨ aq3 = 0 then none
    else
      some ((((a0 - aq1) / aq1) * weight_q1
        + ((a0 - aq2) / aq2) * weight_q2
        + ((a0 - aq3) / aq3) * weight_q3
        + ((a0 - a1y) / a1y) * weight_y1) * 100)
  | _, _, _, _, _ => none

/-- `safe_detect_number` from `rsr_prot_pre.py`: `any(v in (None, 0) for v in
vals)` rejects a zero value in ANY of the five prices, the base price
included. -/
def safe_detect_number_pre (p0 p1y pq1 pq2 pq3 : Option ℚ) : Option ℚ :=
  match p0, p1y, pq1, pq2, pq3 with
  | some a0, some a1y, some aq1, some aq2, some aq3 =>
    if a0 = 0 ∨ a1y = 0 ∨ aq1 = 0 ∨ aq2 = 0 ∨ aq3 = 0 then none
    else
      some ((((a0 - aq1) / aq1) * weight_q1
        + ((a0 - aq2) / aq2) * weight_q2
        + ((a0 - aq3) / aq3) * weight_q3
        + ((a0 - a1y) / a1y) * weight_y1) * 100)
  | _, _, _, _, _ => none

/-- An exchange calendar: the ascending list of its valid sessions. -/
abbrev Calendar := List Int

/-- `cal.sessions_in_range(start, end)`: the sessions inside the closed
interval. -/
def sessions_in_range (cal : Calendar) (start stop : Int) : List Int :=
  cal.filter (fun s => decide (start ≤ s ∧ s ≤ stop))

/-- `prev_or_same_session` from `rsr_old.py`: the last session in the
40-calendar-day window `[ymd − 40, ymd]`, or an explicit error when that
window holds no session. -/
def prev_or_same_session (cal : Calendar) (ymd : Int) : Except String Int :=
  match (sessions_in_range cal (ymd - 40) ymd).getLast? with
  | none => .error "no trading session on or before the given date"
  | some s => .ok s

/-- `prev_or_same_session` from `rsr_prot_pre.py`: same 40-day window, but
without the emptiness check — `sessions[-1]` on an empty index raises an
(unguarded) `IndexError`, embedded as `none`. -/
def prev_or_same_session_pre (cal : Calendar) (ymd : Int) : Option Int :=
  (sessions_in_range cal (ymd - 40) ymd).getLast?

/-- The allocation policy strings accepted by `simulate_10k`
("fractional" / "1share" / "lot100"). -/
inductive Mode where
  | fractional
  | oneShare
  | lot100
deriving DecidableEq

/-- The dict returned by `simulate_10k`. -/
structure SimRow where
  shares : ℚ
  cost : ℚ
  cash : ℚ
  value_now : ℚ
  profit : ℚ
  profit_pct : ℚ
deriving DecidableEq

/-- Python float division: raises `ZeroDivisionError` on a zero denominator. -/
def pydiv (a b : ℚ) : Option ℚ :=
  if b = 0 then none else some (a / b)

/-- `simulate_10k` from `simulation_10万円ずつ.py`.  Guard: a missing or
non-positive buy price (or missing comparison price) yields the degenerate
all-cash row.  Otherwise shares/cost/cash follow the mode, and
`profit_pct = profit / invest_yen * 100` — a Python division that raises when
`invest_yen = 0`, hence the `Option` result. -/
def simulate_10k (past now : Option ℚ) (invest_yen : ℤ) (mode : Mode) :
    Option SimRow :=
  match past, now with
  | some p, some n =>
    if p ≤ 0 then
      some ⟨0, 0, (invest_yen : ℚ), (invest_yen : ℚ), 0, 0⟩
    else
      let scc : ℚ × ℚ × ℚ :=
        match mode with
        | .fractional => ((invest_yen : ℚ) / p, (invest_yen : ℚ), 0)
        | .oneShare =>
          let sh : ℚ := ((⌊(invest_yen : ℚ) / p⌋ : ℤ) : ℚ)
          (sh, sh * p, (invest_yen : ℚ) - sh * p)
        | .lot100 =>
          let lots : ℤ := ⌊(invest_yen : ℚ) / (p * 100)⌋
          let sh : ℚ := ((lots * 100 : ℤ) : ℚ)
          (sh, sh * p, (invest_yen : ℚ) - sh * p)
      let value_now : ℚ := scc.1 * n + scc.2.2
      let profit : ℚ := value_now - (invest_yen : ℚ)
      match pydiv profit (invest_yen : ℚ) with
      | none => none
      | some q => some ⟨scc.1, scc.2.1, scc.2.2, value_now, profit, q * 100⟩
  | _, _ =>
    some ⟨0, 0, (invest_yen : ℚ), (invest_yen : ℚ), 0, 0⟩

/-- The descending-by-score comparator behind
`results.sort(key=lambda x: x[1], reverse=True)`. -/
def ranker_le (a b : String × ℚ) : Bool := decide (b.2 ≤ a.2)

/-- Python's `list.sort(key=lambda x: x[1], reverse=True)`: the stable
descending sort of the scored pairs. -/
def sort_desc (l : List (String × ℚ)) : List (String × ℚ) :=
  l.mergeSort ranker_le

/-- One scoring step of the `rsr_old.py` main loop: resolve the five anchor
sessions against the instrument's series and combine. -/
def score_ticker (row : PriceSeries) (s0 s1y sq1 sq2 sq3 : Int) : Option ℚ :=
  safe_detect_number
    (pick_close_on_or_before row s0)
    (pick_close_on_or_before row s1y)
    (pick_close_on_or_before row sq1)
    (pick_close_on_or_before row sq2)
    (pick_close_on_or_before row sq3)

/-- The scoring loop of `rsr_old.py` `main` (also `RSRだけ.py`): an empty
(all-NaN) row is skipped, an undefined score is skipped, otherwise the
(ticker, score) pair is recorded, preserving matrix order. -/
def rank_pass (s0 s1y sq1 sq2 sq3 : Int) :
    PriceMatrix → List (String × ℚ) × List String
  | [] => ([], [])
  | (ticker, row) :: rest =>
    let acc := rank_pass s0 s1y sq1 sq2 sq3 rest
    if row = [] then (acc.1, ticker :: acc.2)
    else
      match score_ticker row s0 s1y sq1 sq2 sq3 with
      | none => (acc.1, ticker :: acc.2)
      | some dn => ((ticker, dn) :: acc.1, acc.2)

/-- `rsr_old.py` `main` after anchor resolution: score every matrix row, sort
descending by score, keep the top `top_n` for the output artifact, retain the
skipped set. -/
def rsr_rank (m : PriceMatrix) (s0 s1y sq1 sq2 sq3 : Int) (top_n : Nat) :
    List (String × ℚ) × List String :=
  let acc := rank_pass s0 s1y sq1 sq2 sq3 m
  ((sort_desc acc.1).take top_n, acc.2)

/-- `resolve_row_key` from `simulation_onebuy_in_v3.py`: try `{code}.T`,
`TSE:{code}`, bare `code`, then any index key ending in `code`. -/
def resolve_row_key (m : PriceMatrix) (code : String) : Option String :=
  let idx := m.map Prod.fst
  let c1 := code ++ ".T"
  let c2 := "TSE:" ++ code
  if idx.contains c1 then some c1
  else if idx.contains c2 then some c2
  else if idx.contains code then some code
  else idx.find? (fun k => k.endsWith code)

/-- One line of the one-share simulation report. -/
structure TradeRow where
  pos : Nat
  ticker : String
  buy : ℚ
  sell : ℚ
  diff : ℚ
  pct : ℚ
deriving DecidableEq

/-- The per-instrument loop of `simulation_onebuy_in_v3.py` `main`: resolve
the row key, the buy price at-or-before `buy_date` and the sell price
at-or-before `sell_date`; missing key, missing price or a zero buy price is
reported as a skip. -/
def one_buy_rows (m : PriceMatrix) (buy_date sell_date : Int) :
    List (Nat × String) → List TradeRow × List (Nat × String × String)
  | [] => ([], [])
  | (pos, code) :: rest =>
    let acc := one_buy_rows m buy_date sell_date rest
    let ticker := code ++ ".T"
    match resolve_row_key m code with
    | none => (acc.1, (pos, ticker, "row not found") :: acc.2)
    | some key =>
      let row := (m.lookup key).getD []
      match last_value_on_or_before row buy_date,
            last_value_on_or_before row sell_date with
      | some bu, some se =>
        if bu.1 = 0 then (acc.1, (pos, ticker, "insufficient data") :: acc.2)
        else
          (⟨pos, ticker, bu.1, se.1, se.1 - bu.1,
              (se.1 - bu.1) / bu.1 * 100⟩ :: acc.1, acc.2)
      | _, _ => (acc.1, (pos, ticker, "insufficient data") :: acc.2)

/-- The aggregate totals printed by `simulation_onebuy_in_v3.py`;
`total_pct` is `None` (the float NaN) when the summed basis is zero. -/
structure SimTotals where
  total_buy : ℚ
  total_sell : ℚ
  total_profit : ℚ
  total_pct : Option ℚ
deriving DecidableEq

/-- `main` of `simulation_onebuy_in_v3.py` after argument parsing: an
inverted date pair or an empty code list aborts with `SystemExit` before any
per-instrument computation; otherwise the rows are computed, sorted
descending by price return, and totalled. -/
def simulation_onebuy_main (buy_date sell_date : Int) (codes : List String)
    (m : PriceMatrix) : Except String (List TradeRow × SimTotals) :=
  if sell_date < buy_date then .error "sell date precedes buy date"
  else if codes = [] then .error "no instrument codes extracted"
  else
    let acc := one_buy_rows m buy_date sell_date (codes.enumFrom 1)
    let sorted := acc.1.mergeSort (fun a b => decide (b.pct ≤ a.pct))
    let tb := (sorted.map TradeRow.buy).sum
    let ts := (sorted.map TradeRow.sell).sum
    .ok (sorted, ⟨tb, ts, ts - tb,
      if tb = 0 then none else some ((ts - tb) / tb * 100)⟩)

/-- `nikkei225_return_pct` from `simulation_v3.py`: looks the benchmark row
up, rejects an empty row, rejects an inverted date pair, resolves both
prices carry-backward, and divides by the buy price (a Python division that
raises on zero). -/
def nikkei225_return_pct (m : PriceMatrix) (ticker : String)
    (buy_date sell_date : Int) : Except String ℚ :=
  match m.lookup ticker with
  | none => .error "ticker not found in CSV"
  | some row =>
    if row = [] then .error "ticker data empty"
    else if sell_date < buy_date then .error "sell date precedes buy date"
    else
      match (row.filter (fun e => decide (e.1 ≤ buy_date))).getLast? with
      | none => .error "no data at or before the buy date"
      | some bu =>
        match (row.filter (fun e => decide (e.1 ≤ sell_date))).getLast? with
        | none => .error "no data at or before the sell date"
        | some se =>
          if bu.2 = 0 then .error "division by zero"
          else .ok ((se.2 - bu.2) / bu.2 * 100)

/-! ### Helper lemmas on sorted association lists -/

/-- In a strictly-increasing-key list, a key below every recorded key is
absent. -/
theorem lookup_eq_none_of_lt {S : PriceSeries} {day : Int}
    (h : ∀ e ∈ S, day < e.1) : S.lookup day = none := by
  induction S with
  | nil => rfl
  | cons a rest ih =>
    obtain ⟨k, v⟩ := a
    have hk : day < k := h (k, v) (List.mem_cons_self _ _)
    have hbeq : (day == k) = false := by
      simp only [beq_eq_false_iff_ne, ne_eq]
      omega
    simp only [List.lookup, hbeq]
    exact ih fun e he => h e (List.mem_cons_of_mem _ he)

/-- The last element of a list that is strictly increasing under `f` bounds
`f` over the whole list. -/
theorem le_getLast_of_pairwise {α : Type} (f : α → Int) :
    ∀ (l : List α), l.Pairwise (fun a b => f a < f b) →
      ∀ m, l.getLast? = some m → ∀ x ∈ l, f x ≤ f m := by
  intro l
  induction l with
  | nil => intro _ m hm; simp at hm
  | cons a rest ih =>
    intro hp m hm x hx
    cases rest with
    | nil =>
      simp only [List.getLast?_singleton, Option.some.injEq] at hm
      subst hm
      simp only [List.mem_singleton] at hx
      subst hx
      exact le_refl _
    | cons b t =>
      rw [List.getLast?_cons_cons] at hm
      rcases List.mem_cons.mp hx with rfl | hx'
      · have hm_mem : m ∈ b :: t := List.mem_of_getLast?_eq_some hm
        exact le_of_lt ((List.pairwise_cons.mp hp).1 m hm_mem)
      · exact ih hp.of_cons m hm x hx'

/-- Under the strictly-increasing invariant, membership determines `lookup`. -/
theorem lookup_eq_some_of_mem {S : PriceSeries} {d : Int} {p : ℚ}
    (hs : SortedSeries S) (h : (d, p) ∈ S) : S.lookup d = some p := by
  induction S with
  | nil => simp at h
  | cons a rest ih =>
    obtain ⟨k, v⟩ := a
    rcases List.mem_cons.mp h with heq | hmem
    · obtain ⟨rfl, rfl⟩ := Prod.mk.injEq .. |>.mp heq
      simp [List.lookup]
    · have hk : k < d := (List.pairwise_cons.mp hs).1 (d, p) hmem
      have hbeq : (d == k) = false := by
        simp only [beq_eq_false_iff_ne, ne_eq]
        omega
      simp only [List.lookup, hbeq]
      exact ih hs.of_cons hmem

/-- When an exact date match exists, the carry-backward filter ends exactly
at that entry. -/
theorem filter_getLast_of_lookup {S : PriceSeries} {d : Int} {v : ℚ}
    (hs : SortedSeries S) (h : S.lookup d = some v) :
    (S.filter (fun e => decide (e.1 ≤ d))).getLast? = some (d, v) := by
  induction S with
  | nil => simp [List.lookup] at h
  | cons a rest ih =>
    obtain ⟨k, w⟩ := a
    by_cases hkd : d = k
    · subst hkd
      simp only [List.lookup, beq_self_eq_true] at h
      obtain rfl : w = v := by injection h
      have hrest : rest.filter (fun e => decide (e.1 ≤ d)) = [] := by
        rw [List.filter_eq_nil_iff]
        intro e he
        have := (List.pairwise_cons.mp hs).1 e he
        simp only [decide_eq_true_eq]
        omega
      simp [List.filter_cons, hrest]
    · have hbeq : (d == k) = false := by
        simp only [beq_eq_false_iff_ne, ne_eq]
        omega
      simp only [List.lookup, hbeq] at h
      by_cases hk : k ≤ d
      · have ihh := ih hs.of_cons h
        rw [List.filter_cons_of_pos (by simpa using hk)]
        cases hfr : rest.filter (fun e => decide (e.1 ≤ d)) with
        | nil => rw [hfr] at ihh; simp at ihh
        | cons x xs => rw [hfr] at ihh; rw [List.getLast?_cons_cons, ihh]
      · exfalso
        have : rest.lookup d = none := by
          apply lookup_eq_none_of_lt
          intro e he
          have := (List.pairwise_cons.mp hs).1 e he
          omega
        rw [this] at h
        exact Option.noConfusion h

/-- Canonical form of the resolver: under the series invariant,
`pick_close_on_or_before` is the value of the last entry dated `≤ day`. -/
theorem pick_eq_filter_getLast {S : PriceSeries} {d : Int}
    (hs : SortedSeries S) :
    pick_close_on_or_before S d
      = ((S.filter (fun e => decide (e.1 ≤ d))).getLast?).map Prod.snd := by
  unfold pick_close_on_or_before
  by_cases hS : S = []
  · subst hS; simp
  · rw [if_neg hS]
    cases hlk : S.lookup d with
    | some v => rw [filter_getLast_of_lookup hs hlk]; rfl
    | none => cases (S.filter (fun e => decide (e.1 ≤ d))).getLast? <;> rfl

/-- Under the strictly-increasing invariant, entries are determined by their
dates. -/
theorem eq_of_mem_of_same_date {S : PriceSeries} (hs : SortedSeries S)
    {e1 e2 : Int × ℚ} (h1 : e1 ∈ S) (h2 : e2 ∈ S) (h : e1.1 = e2.1) :
    e1 = e2 := by
  induction S with
  | nil => simp at h1
  | cons a rest ih =>
    rcases List.mem_cons.mp h1 with rfl | h1'
    · rcases List.mem_cons.mp h2 with rfl | h2'
      · rfl
      · exact absurd h (by have := (List.pairwise_cons.mp hs).1 e2 h2'; omega)
    · rcases List.mem_cons.mp h2 with rfl | h2'
      · exact absurd h (by have := (List.pairwise_cons.mp hs).1 e1 h1'; omega)
      · exact ih hs.of_cons h1' h2'

/-! ### Claim theorems -/

/-- C2: for every price series `S` (satisfying the loader invariant) and
query date `d`, `value_on_or_before` returns the price at `d` when `S` has
an entry at `d`; otherwise it returns the price at the greatest recorded
date of `S` less than `d`; and it returns Missing (`none`) exactly when `S`
has no entry at or before `d`.  The variant `last_value_on_or_before` of the
simulators agrees with it. -/
theorem value_on_or_before_spec (S : PriceSeries) (d : Int)
    (hs : SortedSeries S) :
    (∀ p : ℚ, (d, p) ∈ S → pick_close_on_or_before S d = some p)
    ∧ ((∃ e ∈ S, e.1 < d) → (∀ p : ℚ, (d, p) ∉ S) →
        ∃ e', e' ∈ S ∧ e'.1 < d ∧ (∀ x ∈ S, x.1 < d → x.1 ≤ e'.1)
          ∧ pick_close_on_or_before S d = some e'.2)
    ∧ (pick_close_on_or_before S d = none ↔ ∀ e ∈ S, d < e.1)
    ∧ (last_value_on_or_before S d).map Prod.fst
        = pick_close_on_or_before S d := by
  refine ⟨?_, ?_, ?_, ?_⟩
  · intro p hp
    have hlk := lookup_eq_some_of_mem hs hp
    unfold pick_close_on_or_before
    rw [if_neg (List.ne_nil_of_mem hp), hlk]
  · rintro ⟨e, he, hed⟩ hno
    rw [pick_eq_filter_getLast hs]
    have hmem : e ∈ S.filter (fun e => decide (e.1 ≤ d)) :=
      List.mem_filter.mpr ⟨he, by simp only [decide_eq_true_eq]; omega⟩
    have hne := List.ne_nil_of_mem hmem
    obtain ⟨m, hm⟩ :=
      Option.isSome_iff_exists.mp (List.getLast?_isSome.mpr hne)
    have hmS : m ∈ S.filter (fun e => decide (e.1 ≤ d)) :=
      List.mem_of_getLast?_eq_some hm
    have hmS' : m ∈ S := List.mem_of_mem_filter hmS
    have hmle : m.1 ≤ d := by
      have := (List.mem_filter.mp hmS).2
      simpa using this
    have hmlt : m.1 < d := by
      rcases lt_or_eq_of_le hmle with h | h
      · exact h
      · exfalso
        exact hno m.2 (by rw [← h]; exact hmS')
    refine ⟨m, hmS', hmlt, ?_, by rw [hm]; rfl⟩
    intro x hx hxd
    have hxf : x ∈ S.filter (fun e => decide (e.1 ≤ d)) :=
      List.mem_filter.mpr ⟨hx, by simp only [decide_eq_true_eq]; omega⟩
    exact le_getLast_of_pairwise Prod.fst _ (hs.filter _) m hm x hxf
  · rw [pick_eq_filter_getLast hs]
    constructor
    · intro h e he
      by_contra hlt
      push_neg at hlt
      have hmem : e ∈ S.filter (fun e => decide (e.1 ≤ d)) :=
        List.mem_filter.mpr ⟨he, by simpa using hlt⟩
      rw [Option.map_eq_none', List.getLast?_eq_none_iff] at h
      rw [h] at hmem
      simp at hmem
    · intro h
      have hnil : S.filter (fun e => decide (e.1 ≤ d)) = [] := by
        rw [List.filter_eq_nil_iff]
        intro a ha
        have := h a ha
        simp only [decide_eq_true_eq]
        omega
      rw [hnil]
      rfl
  · unfold last_value_on_or_before
    rw [pick_eq_filter_getLast hs]
    cases (S.filter (fun e => decide (e.1 ≤ d))).getLast? <;> rfl

theorem value_on_or_before_spec_witness :
    pick_close_on_or_before
      [((1 : Int), (10 : ℚ)), (2, 20), (3, 30)] 2 = some 20 :=
  (value_on_or_before_spec [((1 : Int), (10 : ℚ)), (2, 20), (3, 30)] 2
    (by decide)).1 20 (by decide)

/-- C3: `value_on_or_before` is monotone-stable: two query dates `d1 ≤ d2`
whose carry-backward filters end at the same recorded date receive the same
price. -/
theorem value_on_or_before_stable (S : PriceSeries) (d1 d2 : Int)
    (hs : SortedSeries S) (_h12 : d1 ≤ d2)
    (hsame : ((S.filter (fun e => decide (e.1 ≤ d1))).getLast?).map Prod.fst
        = ((S.filter (fun e => decide (e.1 ≤ d2))).getLast?).map Prod.fst) :
    pick_close_on_or_before S d1 = pick_close_on_or_before S d2 := by
  rw [pick_eq_filter_getLast hs, pick_eq_filter_getLast hs]
  cases hf1 : (S.filter (fun e => decide (e.1 ≤ d1))).getLast? with
  | none =>
    cases hf2 : (S.filter (fun e => decide (e.1 ≤ d2))).getLast? with
    | none => rfl
    | some m2 => rw [hf1, hf2] at hsame; simp at hsame
  | some m1 =>
    cases hf2 : (S.filter (fun e => decide (e.1 ≤ d2))).getLast? with
    | none => rw [hf1, hf2] at hsame; simp at hsame
    | some m2 =>
      rw [hf1, hf2] at hsame
      simp only [Option.map_some', Option.some.injEq] at hsame
      have h1 : m1 ∈ S :=
        List.mem_of_mem_filter (List.mem_of_getLast?_eq_some hf1)
      have h2 : m2 ∈ S :=
        List.mem_of_mem_filter (List.mem_of_getLast?_eq_some hf2)
      rw [eq_of_mem_of_same_date hs h1 h2 hsame]

theorem value_on_or_before_stable_witness :
    pick_close_on_or_before [((1 : Int), (10 : ℚ)), (3, 30)] 1
      = pick_close_on_or_before [((1 : Int), (10 : ℚ)), (3, 30)] 2 :=
  value_on_or_before_stable [((1 : Int), (10 : ℚ)), (3, 30)] 1 2
    (by decide) (by decide) (by decide)

/-- C4: `prev_or_same_session` searches the 40-calendar-day lookback window
`[d − 40, d]`; when that window holds no valid session it fails with the
explicit calendar-resolution error instead of returning a value, and when it
holds one it returns the latest session of the window.  The unguarded
`rsr_prot_pre.py` copy likewise fails (with an `IndexError`) instead of
returning a value on an empty window. -/
theorem calendar_resolution_spec (cal : Calendar) (d : Int)
    (hcal : cal.Pairwise (· < ·)) :
    (sessions_in_range cal (d - 40) d = [] →
      prev_or_same_session cal d
        = .error "no trading session on or before the given date")
    ∧ (∀ s : Int, prev_or_same_session cal d = .ok s →
        s ∈ sessions_in_range cal (d - 40) d
        ∧ ∀ x ∈ sessions_in_range cal (d - 40) d, x ≤ s)
    ∧ (sessions_in_range cal (d - 40) d ≠ [] →
        ∃ s, prev_or_same_session cal d = .ok s)
    ∧ (sessions_in_range cal (d - 40) d = [] →
        prev_or_same_session_pre cal d = none) := by
  refine ⟨?_, ?_, ?_, ?_⟩
  · intro h
    unfold prev_or_same_session
    rw [h]
    rfl
  · intro s hok
    unfold prev_or_same_session at hok
    cases hgl : (sessions_in_range cal (d - 40) d).getLast? with
    | none => rw [hgl] at hok; exact Except.noConfusion hok
    | some m =>
      rw [hgl] at hok
      obtain rfl : m = s := by injection hok
      refine ⟨List.mem_of_getLast?_eq_some hgl, ?_⟩
      intro x hx
      exact le_getLast_of_pairwise (fun x => x) _
        (List.Pairwise.filter _ hcal) _ hgl x hx
  · intro hne
    obtain ⟨m, hm⟩ :=
      Option.isSome_iff_exists.mp (List.getLast?_isSome.mpr hne)
    refine ⟨m, ?_⟩
    unfold prev_or_same_session
    rw [hm]
  · intro h
    unfold prev_or_same_session_pre
    rw [h]
    rfl

theorem calendar_resolution_spec_witness :
    (10 : Int) ∈ sessions_in_range [5, 10] (12 - 40) 12
    ∧ ∀ x ∈ sessions_in_range [5, 10] (12 - 40) 12, x ≤ 10 :=
  (calendar_resolution_spec [5, 10] 12 (by decide)).2.1 10 rfl

/-- C1 counterexample: with base price 0 and all four historical prices
present and nonzero, the claim says the score is defined, but
`rsr_prot_pre.py`'s `safe_detect_number` (whose guard is
`any(v in (None, 0) for v in vals)` over all five prices) returns `None`.
The `rsr_old.py` variant of the same function is defined there, so the two
cited implementations genuinely diverge on this input. -/
theorem rsr_zero_base_diverges :
    safe_detect_number_pre (some 0) (some 1) (some 1) (some 1) (some 1) = none
    ∧ safe_detect_number (some 0) (some 1) (some 1) (some 1) (some 1)
        = some (-100) := by
  constructor
  · rfl
  · norm_num [safe_detect_number, weight_q1, weight_q2, weight_q3, weight_y1]

/-- C1 (amended): the `rsr_old.py`/`RSRだけ.py` score is undefined exactly
when one of the five anchor prices is Missing or one of the four historical
prices is zero (a zero base price is still defined), while the
`rsr_prot_pre.py` score additionally treats a zero base price as undefined;
both are defined on every other input. -/
theorem rsr_undefined_characterization
    (p0 p1y pq1 pq2 pq3 : Option ℚ) :
    (safe_detect_number p0 p1y pq1 pq2 pq3 = none ↔
      p0 = none ∨ p1y = none ∨ pq1 = none ∨ pq2 = none ∨ pq3 = none
      ∨ p1y = some 0 ∨ pq1 = some 0 ∨ pq2 = some 0 ∨ pq3 = some 0)
    ∧ (safe_detect_number_pre p0 p1y pq1 pq2 pq3 = none ↔
      p0 = none ∨ p1y = none ∨ pq1 = none ∨ pq2 = none ∨ pq3 = none
      ∨ p0 = some 0 ∨ p1y = some 0 ∨ pq1 = some 0 ∨ pq2 = some 0
      ∨ pq3 = some 0) := by
  rcases p0 with _ | a0 <;> rcases p1y with _ | a1y <;>
    rcases pq1 with _ | aq1 <;> rcases pq2 with _ | aq2 <;>
    rcases pq3 with _ | aq3
  all_goals simp [safe_detect_number, safe_detect_number_pre]
  all_goals exact ⟨by tauto, by tauto⟩

/-- C5: the ranker's output (Python's
`results.sort(key=lambda x: x[1], reverse=True)`) is sorted descending by
score, is a permutation of the scored input, and preserves the input's
relative order on exact score ties (stability), hence is deterministic for a
fixed input ordering. -/
theorem ranked_list_sorted_stable (l : List (String × ℚ)) :
    (sort_desc l).Pairwise (fun a b => b.2 ≤ a.2)
    ∧ (sort_desc l).Perm l
    ∧ ∀ x y : String × ℚ, x.2 = y.2 → [x, y].Sublist l →
        [x, y].Sublist (sort_desc l) := by
  have htrans : ∀ a b c : String × ℚ,
      ranker_le a b → ranker_le b c → ranker_le a c := by
    intro a b c hab hbc
    simp only [ranker_le, decide_eq_true_eq] at *
    exact le_trans hbc hab
  have htotal : ∀ a b : String × ℚ, ranker_le a b || ranker_le b a := by
    intro a b
    simp only [ranker_le, Bool.or_eq_true, decide_eq_true_eq]
    exact le_total b.2 a.2
  refine ⟨?_, List.mergeSort_perm l _, ?_⟩
  · exact (List.sorted_mergeSort htrans htotal l).imp
      (by intro a b h; simpa [ranker_le] using h)
  · intro x y hxy hsub
    exact List.pair_sublist_mergeSort htrans htotal
      (by simp [ranker_le, hxy]) hsub

theorem ranked_list_sorted_stable_witness :
    [(("A" : String), (1 : ℚ)), ("B", 1)].Sublist
      (sort_desc [("C", 0), ("A", 1), ("B", 1)]) :=
  (ranked_list_sorted_stable [("C", 0), ("A", 1), ("B", 1)]).2.2
    ("A", 1) ("B", 1) rfl (by decide)

/-- C6: whenever `simulate_10k` produces rows for the same positive buy
price under the round-lot(100) and the fractional policy, the round-lot
share count is a multiple of 100 and never exceeds the fractional share
count. -/
theorem lot100_multiple_and_bounded (p : ℚ) (now : Option ℚ) (I : ℤ)
    (hp : 0 < p) :
    ∀ r100 rF : SimRow,
      simulate_10k (some p) now I .lot100 = some r100 →
      simulate_10k (some p) now I .fractional = some rF →
      (∃ k : ℤ, r100.shares = 100 * k) ∧ r100.shares ≤ rF.shares := by
  intro r100 rF h100 hF
  cases now with
  | none =>
    simp only [simulate_10k, Option.some.injEq] at h100 hF
    rw [← h100, ← hF]
    exact ⟨⟨0, by norm_num⟩, le_refl _⟩
  | some n =>
    by_cases hI : (I : ℚ) = 0
    · simp [simulate_10k, pydiv, hp.not_le, hI] at h100
    · simp only [simulate_10k, pydiv, if_neg hp.not_le, if_neg hI,
        Option.some.injEq] at h100 hF
      rw [← h100, ← hF]
      have hfl : ((⌊(I : ℚ) / (p * 100)⌋ : ℚ)) ≤ (I : ℚ) / (p * 100) :=
        Int.floor_le _
      have hp0 : p ≠ 0 := ne_of_gt hp
      have hdiv : ((I : ℚ) / (p * 100)) * 100 = (I : ℚ) / p := by
        field_simp
        ring
      constructor
      · exact ⟨⌊(I : ℚ) / (p * 100)⌋, by push_cast; ring⟩
      · show ((⌊(I : ℚ) / (p * 100)⌋ * 100 : ℤ) : ℚ) ≤ (I : ℚ) / p
        push_cast
        calc ((⌊(I : ℚ) / (p * 100)⌋ : ℚ)) * 100
            ≤ ((I : ℚ) / (p * 100)) * 100 :=
              mul_le_mul_of_nonneg_right hfl (by norm_num)
          _ = (I : ℚ) / p := hdiv

theorem lot100_multiple_and_bounded_witness :
    (∃ k : ℤ,
      (⟨300, 900000, 100000, 1090000, 90000, 9⟩ : SimRow).shares = 100 * k)
    ∧ (⟨300, 900000, 100000, 1090000, 90000, 9⟩ : SimRow).shares
        ≤ (⟨1000 / 3, 1000000, 0, 1100000, 100000, 10⟩ : SimRow).shares :=
  lot100_multiple_and_bounded 3000 (some 3300) 1000000 (by norm_num) _ _
    (by norm_num [simulate_10k, pydiv]) (by norm_num [simulate_10k, pydiv])

/-- C7: the whole-unit ("1share") policy at invest 100000, buy 3000, sell
3300 yields shares 33, cost 99000, idle cash 1000, value 109900, profit
9900, profit_pct 9.9; and in general for this mode shares =
⌊invest / buy⌋, value_now = shares · comparison + cash, profit = value_now −
invest, profit_pct = profit / invest · 100. -/
theorem whole_unit_allocation :
    simulate_10k (some 3000) (some 3300) 100000 Mode.oneShare
      = some ⟨33, 99000, 1000, 109900, 9900, 99 / 10⟩
    ∧ ∀ (p n : ℚ) (I : ℤ), 0 < p → (I : ℚ) ≠ 0 →
        ∃ row : SimRow,
          simulate_10k (some p) (some n) I Mode.oneShare = some row
          ∧ row.shares = ((⌊(I : ℚ) / p⌋ : ℤ) : ℚ)
          ∧ row.value_now = row.shares * n + row.cash
          ∧ row.profit = row.value_now - ((I : ℤ) : ℚ)
          ∧ row.profit_pct = row.profit / ((I : ℤ) : ℚ) * 100 := by
  constructor
  · norm_num [simulate_10k, pydiv]
  · intro p n I hp hI
    refine ⟨⟨((⌊(I : ℚ) / p⌋ : ℤ) : ℚ),
      ((⌊(I : ℚ) / p⌋ : ℤ) : ℚ) * p,
      (I : ℚ) - ((⌊(I : ℚ) / p⌋ : ℤ) : ℚ) * p,
      ((⌊(I : ℚ) / p⌋ : ℤ) : ℚ) * n
        + ((I : ℚ) - ((⌊(I : ℚ) / p⌋ : ℤ) : ℚ) * p),
      ((⌊(I : ℚ) / p⌋ : ℤ) : ℚ) * n
        + ((I : ℚ) - ((⌊(I : ℚ) / p⌋ : ℤ) : ℚ) * p) - (I : ℚ),
      (((⌊(I : ℚ) / p⌋ : ℤ) : ℚ) * n
        + ((I : ℚ) - ((⌊(I : ℚ) / p⌋ : ℤ) : ℚ) * p) - (I : ℚ))
        / (I : ℚ) * 100⟩, ?_, rfl, rfl, rfl, rfl⟩
    simp [simulate_10k, pydiv, hp.not_le, hI]

theorem whole_unit_allocation_witness :
    ∃ row : SimRow,
      simulate_10k (some 3000) (some 3300) 100000 Mode.oneShare = some row
      ∧ row.shares = ((⌊(100000 : ℚ) / 3000⌋ : ℤ) : ℚ)
      ∧ row.value_now = row.shares * 3300 + row.cash
      ∧ row.profit = row.value_now - ((100000 : ℤ) : ℚ)
      ∧ row.profit_pct = row.profit / ((100000 : ℤ) : ℚ) * 100 :=
  whole_unit_allocation.2 3000 3300 100000 (by norm_num) (by norm_num)

/-- C9 counterexample: the claim says `simulate_10k` is total for every
invest_amount, but at invest_amount 0 with valid prices the
`profit / invest_yen` step is a Python division by zero
(`ZeroDivisionError`), embedded here as `none`. -/
theorem simulate_10k_zero_invest_raises :
    simulate_10k (some 1) (some 1) 0 Mode.oneShare = none := by decide

/-- C9 (amended): `simulate_10k` never divides by the buy price when it is
nonpositive: a missing buy price, a missing comparison price or a
non-positive buy price yields the degenerate all-cash row, and for every
NONZERO invest_amount the function is total; totality fails only at
invest_amount 0, where the profit-percentage step divides by the invested
amount. -/
theorem simulate_10k_guard_and_totality
    (past now : Option ℚ) (I : ℤ) (mode : Mode) :
    ((past = none ∨ now = none ∨ ∃ p, past = some p ∧ p ≤ 0) →
      simulate_10k past now I mode
        = some ⟨0, 0, (I : ℚ), (I : ℚ), 0, 0⟩)
    ∧ ((I : ℚ) ≠ 0 → (simulate_10k past now I mode).isSome) := by
  constructor
  · rintro (rfl | rfl | ⟨p, rfl, hple⟩)
    · cases now <;> rfl
    · cases past <;> rfl
    · cases now with
      | none => rfl
      | some n => simp [simulate_10k, hple]
  · intro hI
    cases past with
    | none => cases now <;> simp [simulate_10k]
    | some p =>
      cases now with
      | none => simp [simulate_10k]
      | some n =>
        by_cases hple : p ≤ 0
        · simp [simulate_10k, hple]
        · cases mode <;> simp [simulate_10k, pydiv, hple, hI]

theorem simulate_10k_guard_and_totality_witness :
    simulate_10k none (some 5) 7 Mode.fractional = some ⟨0, 0, 7, 7, 0, 0⟩
    ∧ (simulate_10k (some 2) (some 3) 5 Mode.oneShare).isSome :=
  ⟨(simulate_10k_guard_and_totality none (some 5) 7 .fractional).1
      (Or.inl rfl),
   (simulate_10k_guard_and_totality (some 2) (some 3) 5 .oneShare).2
      (by norm_num)⟩

/-- The scoring loop never scores a ticker all of whose matrix rows are
empty, and always records it as skipped when it owns a row. -/
theorem rank_pass_absent (s0 s1y sq1 sq2 sq3 : Int) (ticker : String) :
    ∀ m : PriceMatrix,
      (∀ row ∈ m, row.1 = ticker → row.2 = ([] : PriceSeries)) →
      (∀ s : ℚ, (ticker, s) ∉ (rank_pass s0 s1y sq1 sq2 sq3 m).1)
      ∧ ((∃ row ∈ m, row.1 = ticker) →
          ticker ∈ (rank_pass s0 s1y sq1 sq2 sq3 m).2) := by
  intro m
  induction m with
  | nil =>
    intro _
    refine ⟨by simp [rank_pass], ?_⟩
    rintro ⟨row, h, _⟩
    simp at h
  | cons a rest ih =>
    intro hall
    obtain ⟨t, row⟩ := a
    have ihr := ih fun r hr he => hall r (List.mem_cons_of_mem _ hr) he
    constructor
    · intro s hmem
      by_cases hrow : row = []
      · simp only [rank_pass, hrow, if_pos] at hmem
        exact ihr.1 s hmem
      · have hne : t ≠ ticker := fun he =>
          hrow (hall (t, row) (List.mem_cons_self _ _) he)
        cases hsc : score_ticker row s0 s1y sq1 sq2 sq3 with
        | none =>
          simp only [rank_pass, if_neg hrow, hsc] at hmem
          exact ihr.1 s hmem
        | some dn =>
          simp only [rank_pass, if_neg hrow, hsc, List.mem_cons] at hmem
          rcases hmem with he | hmem
          · exact hne (congrArg Prod.fst he).symm
          · exact ihr.1 s hmem
    · rintro ⟨r, hr, hrt⟩
      rcases List.mem_cons.mp hr with rfl | hr'
      · have hrow : row = [] := hall (t, row) (List.mem_cons_self _ _) hrt
        have ht : t = ticker := hrt
        subst hrow
        subst ht
        simp [rank_pass]
      · have hmem := ihr.2 ⟨r, hr', hrt⟩
        by_cases hrow : row = []
        · simp only [rank_pass, hrow, if_pos, List.mem_cons]
          exact Or.inr hmem
        · cases hsc : score_ticker row s0 s1y sq1 sq2 sq3 with
          | none =>
            simp only [rank_pass, if_neg hrow, hsc, List.mem_cons]
            exact Or.inr hmem
          | some dn =>
            simp only [rank_pass, if_neg hrow, hsc]
            exact hmem

/-- C8: an instrument whose series is entirely absent from the matrix never
appears in the scored part of the RankedList, for any `top_n`, and appears
in the skipped set whenever the matrix carries a row for it. -/
theorem absent_instrument_only_skipped
    (m : PriceMatrix) (s0 s1y sq1 sq2 sq3 : Int) (top_n : Nat)
    (ticker : String)
    (hall : ∀ row ∈ m, row.1 = ticker → row.2 = ([] : PriceSeries)) :
    (∀ s : ℚ, (ticker, s) ∉ (rsr_rank m s0 s1y sq1 sq2 sq3 top_n).1)
    ∧ ((∃ row ∈ m, row.1 = ticker) →
        ticker ∈ (rsr_rank m s0 s1y sq1 sq2 sq3 top_n).2) := by
  have hpass := rank_pass_absent s0 s1y sq1 sq2 sq3 ticker m hall
  constructor
  · intro s hmem
    have h1 : (ticker, s) ∈ sort_desc (rank_pass s0 s1y sq1 sq2 sq3 m).1 :=
      List.mem_of_mem_take hmem
    have h2 : (ticker, s) ∈ (rank_pass s0 s1y sq1 sq2 sq3 m).1 :=
      List.mem_mergeSort.mp h1
    exact hpass.1 s h2
  · exact hpass.2

theorem absent_instrument_only_skipped_witness :
    ((("X" : String), (0 : ℚ))
        ∉ (rsr_rank [("X", ([] : PriceSeries))] 0 0 0 0 0 5).1)
    ∧ "X" ∈ (rsr_rank [("X", ([] : PriceSeries))] 0 0 0 0 0 5).2 :=
  ⟨(absent_instrument_only_skipped [("X", [])] 0 0 0 0 0 5 "X"
      (by decide)).1 0,
   (absent_instrument_only_skipped [("X", [])] 0 0 0 0 0 5 "X"
      (by decide)).2 ⟨("X", []), by simp, rfl⟩⟩

/-- C10: both backtest simulators reject an inverted date pair with an
explicit error before any per-instrument computation: `main` of
`simulation_onebuy_in_v3.py` exits with the date error and produces no rows
and no totals, and `nikkei225_return_pct` of `simulation_v3.py` raises. -/
theorem inverted_dates_rejected (b s : Int) (codes : List String)
    (m : PriceMatrix) (ticker : String) (h : s < b) :
    simulation_onebuy_main b s codes m
      = .error "sell date precedes buy date"
    ∧ ∃ msg, nikkei225_return_pct m ticker b s = .error msg := by
  constructor
  · unfold simulation_onebuy_main
    rw [if_pos h]
  · unfold nikkei225_return_pct
    cases hlk : m.lookup ticker with
    | none => exact ⟨_, rfl⟩
    | some row =>
      by_cases hrow : row = []
      · refine ⟨"ticker data empty", ?_⟩
        simp [hrow]
      · refine ⟨"sell date precedes buy date", ?_⟩
        simp [hrow, h]

theorem inverted_dates_rejected_witness :
    simulation_onebuy_main 5 3 ["7203"] []
      = .error "sell date precedes buy date"
    ∧ ∃ msg, nikkei225_return_pct [] "^N225" 5 3 = .error msg :=
  inverted_dates_rejected 5 3 ["7203"] [] "^N225" (by norm_num)

end Trading
